import Mathlib

/-!
Shallow embedding of the census fixed-width record decoder in
`censusdata.py`: the schema builder `parse_geo_sas_lines`, the record
decoder `parse_geo_line`, the per-document catalog-entry builder inside
`codesFromZipFile`, and the query functions `file_for_code` and
`codes_for_description`.  Strings are modelled as `List Char`; Python's
regular-expression matches are embedded as deterministic parsers (each of
the three patterns has disjoint character classes at every choice point,
so greedy matching with backtracking collapses to maximal-munch scanning,
argued pattern by pattern in the comments below).  Python dictionaries
(insertion-ordered) are association lists; an uncaught `KeyError` is an
`Except.error`.
-/

namespace Census

abbrev Str := List Char

/-- Character class `[A-Z]`. -/
def isUpperAlpha (c : Char) : Bool := 'A' ≤ c && c ≤ 'Z'

/-- Character class `[0-9]`. -/
def isDigitB (c : Char) : Bool := '0' ≤ c && c ≤ '9'

/-- Character class `[0-9A-Z]`. -/
def isAlnumU (c : Char) : Bool := isUpperAlpha c || isDigitB c

/-- Python `bytes.strip()` whitespace: space, tab, newline, CR, VT, FF. -/
def isPySpace (c : Char) : Bool :=
  c == ' ' || c == '\t' || c == '\n' || c == '\r' || c == '\x0b' || c == '\x0c'

/-- Python's `line.strip()`. -/
def pyStrip (s : Str) : Str :=
  ((s.dropWhile isPySpace).reverse.dropWhile isPySpace).reverse

/-- The text standing before the LAST apostrophe of `s`, or `none` when `s`
has no apostrophe.  This is how the trailing greedy group of the regex
fragment comes out: the dot is greedy, so the closing quote of the pattern
consumes the last quote of the line, and the capture is everything before
it. -/
def beforeLastQuote (s : Str) : Option Str :=
  match s.reverse.dropWhile (fun c => c != '\'') with
  | [] => none
  | _ :: rest => some rest.reverse

/-- Digits-to-number, `int()` on an ASCII decimal bytestring. -/
def natOfDigits (ds : Str) : Nat :=
  ds.foldl (fun n c => 10 * n + (c.toNat - 48)) 0

/-! ## The three pattern matchers

`labelpat`, `fieldspat` (schema documents) and `pat` (catalog documents),
each embedded as the deterministic parser its `re.match` call amounts to. -/

/-- Python `re.match` of the label pattern: an optional literal marker
followed by a greedy run of `[A-Z0-9]`, a literal equals sign and quote,
then a greedy dot-star closed by a quote.  The run is maximal because the
equals sign is not in the class; the optional marker commits whenever the
line starts with it, because otherwise the maximal run would stop at the
marker's trailing space where no equals sign stands. -/
def matchLabel (line : Str) : Option (Str × Str) :=
  let s := if line.take 6 = ("LABEL ".toList) then line.drop 6 else line
  match s.dropWhile isAlnumU with
  | '=' :: '\'' :: r => (beforeLastQuote r).map (fun name => (s.takeWhile isAlnumU, name))
  | _ => none

/-- Python `re.match` of the byte-range field pattern: a nonempty greedy
run of `[A-Z0-9]`, the literal space-dollar-space, a nonempty digit run, a
dash, a nonempty digit run.  Each run is maximal because the following
literal is outside its class. -/
def matchField (line : Str) : Option (Str × Nat × Nat) :=
  match line.takeWhile isAlnumU, line.dropWhile isAlnumU with
  | ds@(_ :: _), ' ' :: '$' :: ' ' :: r =>
    match r.takeWhile isDigitB, r.dropWhile isDigitB with
    | a@(_ :: _), '-' :: r2 =>
      match r2.takeWhile isDigitB with
      | b@(_ :: _) => some (ds, natOfDigits a, natOfDigits b)
      | [] => none
    | _, _ => none
  | _, _ => none

/-- The four-character alternative of the counted group `[0-9A-Z]` 3-or-4
followed by the literal equals-quote.  If it fits, the third grabbed
character is alphanumeric, so the three-character alternative (which needs
an equals sign there) cannot also fit: the two alternatives are mutually
exclusive and trying four first is just the regex's greedy order. -/
def grab4 (r : Str) : Option (Str × Str) :=
  match r with
  | a :: b :: c :: d :: e :: f :: rest =>
    if isAlnumU a && isAlnumU b && isAlnumU c && isAlnumU d
        && (e == '=') && (f == '\'') then
      some ([a, b, c, d], rest)
    else none
  | _ => none

/-- The three-character alternative of the counted group. -/
def grab3 (r : Str) : Option (Str × Str) :=
  match r with
  | a :: b :: c :: e :: f :: rest =>
    if isAlnumU a && isAlnumU b && isAlnumU c
        && (e == '=') && (f == '\'') then
      some ([a, b, c], rest)
    else none
  | _ => none

/-- The code part of the catalog pattern after the leading spaces: one
`[A-Z]`, three `[0-9]`, then the counted `[0-9A-Z]` group and the literal
equals-quote.  Returns the captured code and the text after the quote. -/
def codeSplit (s : Str) : Option (Str × Str) :=
  match s with
  | c0 :: d1 :: d2 :: d3 :: rest =>
    if isUpperAlpha c0 && isDigitB d1 && isDigitB d2 && isDigitB d3 then
      match grab4 rest with
      | some (g, after) => some (c0 :: d1 :: d2 :: d3 :: g, after)
      | none =>
        match grab3 rest with
        | some (g, after) => some (c0 :: d1 :: d2 :: d3 :: g, after)
        | none => none
    else none
  | _ => none

/-- Python `re.match` of the catalog code/description pattern: greedy
leading spaces (maximal: the next required class is `[A-Z]`), the code
part, greedy spaces after the opening quote, then the greedy dot-star
closed by the line's last quote. -/
def matchCodeDesc (line : Str) : Option (Str × Str) :=
  match codeSplit (line.dropWhile (fun c => c == ' ')) with
  | some (code, after) =>
    (beforeLastQuote (after.dropWhile (fun c => c == ' '))).map (fun d => (code, d))
  | none => none

/-! ## Schema builder: `parse_geo_sas_lines` -/

/-- One entry of `GeoFields`: the label set by a label line, and the
byte range set by a field line (`start` is the declared 1-based start
minus one, so it can be `-1`; both offsets are stored together or not at
all, since the two Python assignments run back to back). -/
structure GeoField where
  name : Str
  range : Option (Int × Int)
deriving DecidableEq, Repr

/-- Membership of a key in an association list (Python `in` on a dict). -/
def hasKey {α : Type} (c : Str) : List (Str × α) → Bool
  | [] => false
  | p :: rest => if p.1 = c then true else hasKey c rest

/-- Python `GeoFields[code] = dict(name=label)`: overwrite the whole entry
in place (keeping its position, dropping any stored range) when the key
exists, append otherwise. -/
def updName (gf : List (Str × GeoField)) (code : Str) (name : Str) :
    List (Str × GeoField) :=
  if hasKey code gf then
    gf.map (fun p => if p.1 = code then (code, ⟨name, none⟩) else p)
  else gf ++ [(code, ⟨name, none⟩)]

/-- Python `GeoFields[code]['start'] = s; GeoFields[code]['end'] = e`:
update the range of an existing entry, or raise `KeyError` (here `none`)
when the key is absent. -/
def updRange (gf : List (Str × GeoField)) (code : Str) (s e : Int) :
    Option (List (Str × GeoField)) :=
  if hasKey code gf then
    some (gf.map (fun p => if p.1 = code then (code, ⟨p.2.name, some (s, e)⟩) else p))
  else none

/-- `parse_geo_sas_lines`: strip each line, try the label pattern first,
then the field pattern (converting the 1-based inclusive range to 0-based
half-open form), ignore lines matching neither.  An uncaught `KeyError`
(field line whose code has no entry) aborts with the offending code. -/
def parse_geo_sas_lines (lines : List Str) (gf : List (Str × GeoField)) :
    Except Str (List (Str × GeoField)) :=
  match lines with
  | [] => .ok gf
  | line :: rest =>
    let l := pyStrip line
    match matchLabel l with
    | some (code, name) => parse_geo_sas_lines rest (updName gf code name)
    | none =>
      match matchField l with
      | some (code, a, b) =>
        match updRange gf code ((a : Int) - 1) (b : Int) with
        | some gf2 => parse_geo_sas_lines rest gf2
        | none => .error code
      | none => parse_geo_sas_lines rest gf

/-! ## Record decoder: `parse_geo_line` -/

/-- Python's slice `s[a:b]` for integer bounds: negative indices count
from the end, both bounds clamp to the string, and the result is the
half-open window (empty when it is inverted).  Slicing never raises. -/
def pySlice (s : Str) (a b : Int) : Str :=
  let n : Int := s.length
  let a2 := if a < 0 then max (n + a) 0 else min a n
  let b2 := if b < 0 then max (n + b) 0 else min b n
  (s.take b2.toNat).drop a2.toNat

/-- `parse_geo_line`: walk the schema in order, storing the slice for each
complete descriptor; a descriptor with no stored range raises `KeyError`,
which the `except` clause turns into a `break`, returning the partial
record built so far. -/
def parse_geo_line (gf : List (Str × GeoField)) (line : Str) : List (Str × Str) :=
  match gf with
  | [] => []
  | (code, f) :: rest =>
    match f.range with
    | some (a, b) => (code, pySlice line a b) :: parse_geo_line rest line
    | none => []

/-! ## Catalog-entry builder (the per-document loop of `codesFromZipFile`) -/

/-- The five header assignments every file-type entry starts with. -/
def headers5 : List (Str × Str) :=
  [("FILEID".toList, "File Identification".toList),
   ("STUSAB".toList, "State/U.S.-Abbreviation (USPS)".toList),
   ("CHARITER".toList, "Characteristic Iteration".toList),
   ("CIFSN".toList, "Characteristic Iteration File Sequence Number".toList),
   ("LOGRECNO".toList, "Logical Record Number".toList)]

/-- Python `code_dict[pcode] = desc` on an insertion-ordered dictionary:
overwrite in place when the key exists, append otherwise. -/
def odUpdate (d : List (Str × Str)) (c v : Str) : List (Str × Str) :=
  if hasKey c d then d.map (fun p => if p.1 = c then (c, v) else p)
  else d ++ [(c, v)]

/-- The per-document loop of `codesFromZipFile`: start from the five
header assignments, then fold the code/description pattern over the
document's lines. -/
def codesFromSasLines (saslines : List Str) : List (Str × Str) :=
  saslines.foldl
    (fun d line =>
      match matchCodeDesc line with
      | some (c, desc) => odUpdate d c desc
      | none => d)
    headers5

/-! ## Query layer -/

/-- `file_for_code`: first file-type (in catalog iteration order) whose
entry contains the code as a key; `None` when no entry does. -/
def file_for_code (catalog : List (Nat × List (Str × Str))) (code : Str) :
    Option Nat :=
  match catalog with
  | [] => none
  | (fileno, entry) :: rest =>
    if hasKey code entry then some fileno else file_for_code rest code

/-- Python `str.lower()` on the ASCII range. -/
def lowerChar (c : Char) : Char :=
  if isUpperAlpha c then Char.ofNat (c.toNat + 32) else c

/-- Lowercase a string. -/
def lowerStr (s : Str) : Str := s.map lowerChar

/-- Python `needle in hay` on strings: contiguous-substring containment. -/
def strContains (hay needle : Str) : Bool :=
  hay.tails.any (fun t => needle.isPrefixOf t)

/-- `codes_for_description`: lowercase the query once, then scan every
entry of every file-type in order, appending each (code, description)
pair whose lowercased description contains the query. -/
def codes_for_description (catalog : List (Nat × List (Str × Str))) (desc : Str) :
    List (Str × Str) :=
  let d := lowerStr desc
  catalog.foldl
    (fun acc e =>
      e.2.foldl
        (fun acc2 p =>
          if strContains (lowerStr p.2) d then acc2 ++ [(p.1, p.2)] else acc2)
        acc)
    []

/-! ## Spec-side (declarative) definitions

Named after the spec's wording, to be compared with the builders above:
first-occurrence key order, last-write-wins values, and the list of all
case-insensitive description matches. -/

/-- Keys in order of first occurrence, given the keys already seen. -/
def dedupFirstAvoid (seen : List Str) : List Str → List Str
  | [] => []
  | c :: cs =>
    if c ∈ seen then dedupFirstAvoid seen cs
    else c :: dedupFirstAvoid (c :: seen) cs

/-- The spec's insertion order: each key at the position of its first
occurrence in the write sequence. -/
def firstOccurrenceKeys (cs : List Str) : List Str := dedupFirstAvoid [] cs

/-- The spec's last-write-wins value: the value of the last pair of the
write sequence carrying the key, if any. -/
def lastWriteValue (xs : List (Str × Str)) (c : Str) : Option Str :=
  match xs with
  | [] => none
  | p :: rest =>
    match lastWriteValue rest c with
    | some v => some v
    | none => if p.1 = c then some p.2 else none

/-- Association-list lookup (first entry with the key). -/
def entryLookup (d : List (Str × Str)) (c : Str) : Option Str :=
  match d with
  | [] => none
  | p :: rest => if p.1 = c then some p.2 else entryLookup rest c

/-- Fold a sequence of key/value writes over an ordered dictionary. -/
def applyWrites (d : List (Str × Str)) (xs : List (Str × Str)) : List (Str × Str) :=
  xs.foldl (fun acc p => odUpdate acc p.1 p.2) d

/-- The write sequence a document's lines produce under the catalog
code/description pattern. -/
def extractedWrites (lines : List Str) : List (Str × Str) :=
  lines.filterMap matchCodeDesc

/-- The spec's description search: every (code, description) pair of every
entry, in catalog order then entry order, whose lowercased description
contains the lowercased query. -/
def allDescriptionMatches (catalog : List (Nat × List (Str × Str))) (q : Str) :
    List (Str × Str) :=
  match catalog with
  | [] => []
  | e :: rest =>
    e.2.filter (fun p => strContains (lowerStr p.2) (lowerStr q))
      ++ allDescriptionMatches rest q

/-! ## Helper lemmas -/

/-- `hasKey` is key membership. -/
theorem hasKey_mem_iff {α : Type} {c : Str} {d : List (Str × α)} :
    hasKey c d = true ↔ c ∈ d.map Prod.fst := by
  induction d with
  | nil => simp [hasKey]
  | cons p rest ih =>
    simp only [hasKey, List.map_cons, List.mem_cons]
    by_cases h : p.1 = c
    · rw [if_pos h]
      exact ⟨fun _ => Or.inl h.symm, fun _ => rfl⟩
    · rw [if_neg h]
      constructor
      · intro hk
        exact Or.inr (ih.mp hk)
      · intro hm
        rcases hm with hm | hm
        · exact absurd hm.symm h
        · exact ih.mpr hm

/-- Length of a Python slice whose bounds are in range and in order. -/
theorem pySlice_length (s : Str) (a b : Int) (h0 : 0 ≤ a) (hab : a ≤ b)
    (hb : b ≤ (s.length : Int)) : ((pySlice s a b).length : Int) = b - a := by
  have hna : ¬ a < 0 := not_lt.mpr h0
  have hnb : ¬ b < 0 := by omega
  simp only [pySlice, hna, if_false, hnb, List.length_drop, List.length_take]
  have ha2 : min a (s.length : Int) = a := min_eq_left (by omega)
  have hb2 : min b (s.length : Int) = b := min_eq_left hb
  rw [ha2, hb2]
  omega

/-! ## C1 -/

/-- C1 counterexample: on the two-line document exactly as the claim
states it, the first line matches neither pattern (it has no equals sign),
so the byte-range line hits a code with no entry and schema construction
aborts with the uncaught missing-key fault instead of producing the
claimed one-descriptor schema. -/
theorem c1_counterexample :
    parse_geo_sas_lines ["COUNTY$ 'County'".toList, "COUNTY $ 4-6".toList] []
      = .error ("COUNTY".toList) ∧
    parse_geo_sas_lines ["COUNTY$ 'County'".toList, "COUNTY $ 4-6".toList] []
      ≠ .ok [(("COUNTY".toList : Str), ⟨"County".toList, some (3, 6)⟩)] := by
  have base : parse_geo_sas_lines
      ["COUNTY$ 'County'".toList, "COUNTY $ 4-6".toList] []
      = .error ("COUNTY".toList) := rfl
  refine ⟨base, ?_⟩
  rw [base]
  intro h
  exact Except.noConfusion h

/-- C1 amended: with a label line the label pattern accepts, the schema
is the single descriptor COUNTY with label County, start 3, end 6, and
decoding the line XX12034YYYY stores the slice of offsets 3 to 6, the
string 203 (the claim's 034 would be offsets 4 to 7). -/
theorem c1_amended_roundtrip :
    parse_geo_sas_lines ["COUNTY='County'".toList, "COUNTY $ 4-6".toList] []
      = .ok [(("COUNTY".toList : Str), ⟨"County".toList, some (3, 6)⟩)] ∧
    parse_geo_line [(("COUNTY".toList : Str), ⟨"County".toList, some (3, 6)⟩)]
        ("XX12034YYYY".toList)
      = [(("COUNTY".toList : Str), "203".toList)] := by
  exact ⟨rfl, rfl⟩

/-! ## C2 -/

/-- C2: decoding a line at least as long as every descriptor's end, over a
schema whose descriptors all carry a well-formed byte range, returns a
record with exactly the schema's codes in schema order, each value of
length end minus start. -/
theorem c2_decode_complete (gf : List (Str × GeoField)) (line : Str)
    (hc : ∀ p ∈ gf, ∃ a b, p.2.range = some (a, b) ∧ 0 ≤ a ∧ a < b ∧
      b ≤ (line.length : Int)) :
    (parse_geo_line gf line).map Prod.fst = gf.map Prod.fst ∧
    List.Forall₂
      (fun p q => p.1 = q.1 ∧
        ∀ a b, p.2.range = some (a, b) → ((q.2.length : Int) = b - a))
      gf (parse_geo_line gf line) := by
  induction gf with
  | nil => exact ⟨rfl, List.Forall₂.nil⟩
  | cons p rest ih =>
    obtain ⟨code, f⟩ := p
    obtain ⟨a, b, hr, h0, hab, hb⟩ := hc (code, f) (List.mem_cons_self _ _)
    have hr' : f.range = some (a, b) := hr
    have hrest := ih (fun q hq => hc q (List.mem_cons_of_mem _ hq))
    simp only [parse_geo_line, hr']
    constructor
    · simp only [List.map_cons]
      rw [hrest.1]
    · refine List.Forall₂.cons ⟨rfl, ?_⟩ hrest.2
      intro a2 b2 hr2
      have heq : some (a, b) = some (a2, b2) := hr'.symm.trans hr2
      simp only [Option.some.injEq, Prod.mk.injEq] at heq
      obtain ⟨rfl, rfl⟩ := heq
      exact pySlice_length line a b h0 (le_of_lt hab) hb

/-- C2 witness at a concrete schema and line. -/
theorem c2_decode_complete_witness :
    (parse_geo_line
        [("COUNTY".toList, GeoField.mk ("County".toList) (some (3, 6)))]
        ("XX12034YYYY".toList)).map Prod.fst
      = [("COUNTY".toList,
          GeoField.mk ("County".toList) (some (3, 6)))].map Prod.fst ∧
    List.Forall₂
      (fun (p : Str × GeoField) (q : Str × Str) => p.1 = q.1 ∧
        ∀ a b, p.2.range = some (a, b) →
          ((q.2.length : Int) = b - a))
      [("COUNTY".toList, GeoField.mk ("County".toList) (some (3, 6)))]
      (parse_geo_line
        [("COUNTY".toList, GeoField.mk ("County".toList) (some (3, 6)))]
        ("XX12034YYYY".toList)) := by
  refine c2_decode_complete _ _ ?_
  intro p hp
  rw [List.mem_singleton] at hp
  subst hp
  refine ⟨3, 6, rfl, by decide, by decide, by decide⟩

/-! ## C4 -/

/-- C4 counterexample: the line XX is shorter than the descriptor's end 6,
yet decoding neither reports anything nor marks the field: it returns an
ordinary record in which COUNTY silently holds the truncated (here empty)
slice, whose length is not end minus start.  Python slicing never raises,
so there is no per-line report and no decode-error marker anywhere. -/
theorem c4_counterexample :
    parse_geo_line
        [("COUNTY".toList, GeoField.mk ("County".toList) (some (3, 6)))]
        ("XX".toList)
      = [(("COUNTY".toList : Str), ([] : Str))] ∧
    ((([] : Str).length : Int) ≠ 6 - 3) := by
  exact ⟨rfl, by decide⟩

/-- C4 amended: decoding a line shorter than some descriptor's end does
not abort and does not report: over any schema whose descriptors all carry
a byte range, decoding any line (however short) returns an ordinary record
with every code, each value being the silently clamped Python slice of the
line (possibly truncated or empty). -/
theorem c4_amended_silent_truncation (gf : List (Str × GeoField)) (line : Str)
    (hc : ∀ p ∈ gf, p.2.range ≠ none) :
    (parse_geo_line gf line).map Prod.fst = gf.map Prod.fst ∧
    List.Forall₂
      (fun (p : Str × GeoField) (q : Str × Str) => p.1 = q.1 ∧
        ∀ a b, p.2.range = some (a, b) → q.2 = pySlice line a b)
      gf (parse_geo_line gf line) := by
  induction gf with
  | nil => exact ⟨rfl, List.Forall₂.nil⟩
  | cons p rest ih =>
    obtain ⟨code, f⟩ := p
    have hp := hc (code, f) (List.mem_cons_self _ _)
    obtain ⟨⟨a, b⟩, hr'⟩ : ∃ r, f.range = some r :=
      Option.ne_none_iff_exists'.mp hp
    have hrest := ih (fun q hq => hc q (List.mem_cons_of_mem _ hq))
    simp only [parse_geo_line, hr']
    constructor
    · simp only [List.map_cons]
      rw [hrest.1]
    · refine List.Forall₂.cons ⟨rfl, ?_⟩ hrest.2
      intro a2 b2 hr2
      have heq : some (a, b) = some (a2, b2) := hr'.symm.trans hr2
      simp only [Option.some.injEq, Prod.mk.injEq] at heq
      obtain ⟨rfl, rfl⟩ := heq
      rfl

/-- C4 witness: the amended statement applied to the short line XX. -/
theorem c4_amended_silent_truncation_witness :
    (parse_geo_line
        [("COUNTY".toList, GeoField.mk ("County".toList) (some (3, 6)))]
        ("XX".toList)).map Prod.fst
      = [("COUNTY".toList,
          GeoField.mk ("County".toList) (some (3, 6)))].map Prod.fst ∧
    List.Forall₂
      (fun (p : Str × GeoField) (q : Str × Str) => p.1 = q.1 ∧
        ∀ a b, p.2.range = some (a, b) → q.2 = pySlice ("XX".toList) a b)
      [("COUNTY".toList, GeoField.mk ("County".toList) (some (3, 6)))]
      (parse_geo_line
        [("COUNTY".toList, GeoField.mk ("County".toList) (some (3, 6)))]
        ("XX".toList)) := by
  refine c4_amended_silent_truncation _ _ ?_
  intro p hp
  rw [List.mem_singleton] at hp
  subst hp
  decide

/-! ## C10 -/

/-- C10: decoding over a schema whose first defective descriptor (one with
a label but no byte range) sits after the complete ones returns, without
raising, the partial record of exactly the codes before the defective
descriptor, omitting it and everything after it: the stored-range lookup
fault is caught and turns into a break out of the decode loop. -/
theorem c10_break_on_defective (pre post : List (Str × GeoField)) (c : Str)
    (f : GeoField) (line : Str)
    (hpre : ∀ p ∈ pre, p.2.range ≠ none) (hf : f.range = none) :
    parse_geo_line (pre ++ (c, f) :: post) line = parse_geo_line pre line ∧
    (parse_geo_line pre line).map Prod.fst = pre.map Prod.fst := by
  induction pre with
  | nil =>
    simp [parse_geo_line, hf]
  | cons p rest ih =>
    obtain ⟨code, g⟩ := p
    have hp := hpre (code, g) (List.mem_cons_self _ _)
    obtain ⟨⟨a, b⟩, hr'⟩ : ∃ r, g.range = some r :=
      Option.ne_none_iff_exists'.mp hp
    have hrest := ih (fun q hq => hpre q (List.mem_cons_of_mem _ hq))
    simp only [List.cons_append, parse_geo_line, hr', List.map_cons]
    exact ⟨congrArg _ hrest.1, by rw [hrest.2]⟩

/-- C10 witness: a complete descriptor, then a defective one, then another
complete one; decoding returns only the first code. -/
theorem c10_break_on_defective_witness :
    parse_geo_line
        ([("STATE".toList, GeoField.mk ("State".toList) (some (0, 2)))]
          ++ ("COUNTY".toList, GeoField.mk ("County".toList) none)
            :: [("TRACT".toList, GeoField.mk ("Tract".toList) (some (2, 4)))])
        ("AB12".toList)
      = parse_geo_line
          [("STATE".toList, GeoField.mk ("State".toList) (some (0, 2)))]
          ("AB12".toList) ∧
    (parse_geo_line
        [("STATE".toList, GeoField.mk ("State".toList) (some (0, 2)))]
        ("AB12".toList)).map Prod.fst
      = [("STATE".toList,
          GeoField.mk ("State".toList) (some (0, 2)))].map Prod.fst := by
  refine c10_break_on_defective _ _ _ _ _ ?_ rfl
  intro p hp
  rw [List.mem_singleton] at hp
  subst hp
  decide

/-! ## C3 -/

/-- Schema construction over concatenated line lists runs the first part,
then feeds its schema to the second; an abort in the first part is final. -/
theorem parse_geo_sas_lines_append (xs ys : List Str)
    (gf : List (Str × GeoField)) :
    parse_geo_sas_lines (xs ++ ys) gf =
      match parse_geo_sas_lines xs gf with
      | .ok gf2 => parse_geo_sas_lines ys gf2
      | .error e => .error e := by
  induction xs generalizing gf with
  | nil => rfl
  | cons l rest ih =>
    cases hl : matchLabel (pyStrip l) with
    | some p =>
      obtain ⟨c, name⟩ := p
      simp only [List.cons_append, parse_geo_sas_lines, hl]
      exact ih (updName gf c name)
    | none =>
      cases hfld : matchField (pyStrip l) with
      | some t =>
        obtain ⟨c, a, b⟩ := t
        cases hu : updRange gf c ((a : Int) - 1) (b : Int) with
        | some gf2 =>
          simp only [List.cons_append, parse_geo_sas_lines, hl, hfld, hu]
          exact ih gf2
        | none =>
          simp only [List.cons_append, parse_geo_sas_lines, hl, hfld, hu]
      | none =>
        simp only [List.cons_append, parse_geo_sas_lines, hl, hfld]
        exact ih gf

/-- C3 counterexample: a document whose only line is a byte-range
declaration for an undeclared code.  Construction does abort, but through
the raw missing-key fault of the schema dictionary (the `Except.error`
here models Python's uncaught `KeyError` carrying just the code), not
through any distinct, named schema-error kind: the source has no such
error type, so the claimed error discipline fails on this input. -/
theorem c3_counterexample :
    parse_geo_sas_lines ["COUNTY $ 4-6".toList] [] =
      .error ("COUNTY".toList) := by
  rfl

/-- C3 amended: a byte-range line whose code was not declared by any
earlier label line makes schema construction abort at once — but with the
raw missing-key fault on that code (Python's uncaught `KeyError`), not
with a distinct named schema error. -/
theorem c3_amended_missing_label_aborts (preLines : List Str) (l : Str)
    (restLines : List Str) (gf : List (Str × GeoField)) (c : Str) (a b : Nat)
    (hpre : parse_geo_sas_lines preLines [] = .ok gf)
    (hnl : matchLabel (pyStrip l) = none)
    (hfld : matchField (pyStrip l) = some (c, a, b))
    (hk : hasKey c gf = false) :
    parse_geo_sas_lines (preLines ++ l :: restLines) [] = .error c := by
  rw [parse_geo_sas_lines_append, hpre]
  simp only [parse_geo_sas_lines, hnl, hfld]
  simp [updRange, hk]

/-- C3 witness: a label for STATE, then a byte range for the undeclared
COUNTY; construction aborts carrying COUNTY. -/
theorem c3_amended_missing_label_aborts_witness :
    parse_geo_sas_lines
        (["STATE='State'".toList] ++ ("COUNTY $ 4-6".toList) :: [])
        [] = .error ("COUNTY".toList) := by
  refine c3_amended_missing_label_aborts _ _ _
    [("STATE".toList, GeoField.mk ("State".toList) none)]
    ("COUNTY".toList) 4 6 rfl (by decide) (by decide) (by decide)

/-! ## C7 -/

/-- C7: `file_for_code` returns `none` (Python's `None`, the "not found"
result) when the code keys no entry, and the file-type number of the
first entry (in catalog order) keyed by the code otherwise — in
particular the correct number when exactly one entry contains it. -/
theorem c7_file_for_code (catalog : List (Nat × List (Str × Str)))
    (code : Str) :
    ((∀ e ∈ catalog, code ∉ e.2.map Prod.fst) →
      file_for_code catalog code = none) ∧
    (∀ pre fileno entry post,
      catalog = pre ++ (fileno, entry) :: post →
      (∀ e ∈ pre, code ∉ e.2.map Prod.fst) →
      code ∈ entry.map Prod.fst →
      file_for_code catalog code = some fileno) := by
  constructor
  · intro habs
    induction catalog with
    | nil => rfl
    | cons e rest ih =>
      obtain ⟨n, entry⟩ := e
      have h1 : code ∉ entry.map Prod.fst := habs (n, entry) (List.mem_cons_self _ _)
      have h2 : hasKey code entry = false := by
        rw [← Bool.not_eq_true, hasKey_mem_iff]
        exact h1
      simp only [file_for_code, h2, Bool.false_eq_true, if_false]
      exact ih (fun q hq => habs q (List.mem_cons_of_mem _ hq))
  · intro pre fileno entry post hcat hpre hmem
    subst hcat
    induction pre with
    | nil =>
      have h2 : hasKey code entry = true := hasKey_mem_iff.mpr hmem
      simp only [List.nil_append, file_for_code, h2, if_true]
    | cons e rest ih =>
      obtain ⟨n, entry2⟩ := e
      have h1 : code ∉ entry2.map Prod.fst := hpre (n, entry2) (List.mem_cons_self _ _)
      have h2 : hasKey code entry2 = false := by
        rw [← Bool.not_eq_true, hasKey_mem_iff]
        exact h1
      simp only [List.cons_append, file_for_code, h2, Bool.false_eq_true, if_false]
      exact ih (fun q hq => hpre q (List.mem_cons_of_mem _ hq))

/-- C7 witness: a two-entry catalog; P000001 lives only in the second
entry and is found there; COUNTY is in neither and yields `none`. -/
theorem c7_file_for_code_witness :
    file_for_code
        [(1, [("H000001".toList, "Housing".toList)]),
         (2, [("P000001".toList, "Total population".toList)])]
        ("COUNTY".toList) = none ∧
    file_for_code
        [(1, [("H000001".toList, "Housing".toList)]),
         (2, [("P000001".toList, "Total population".toList)])]
        ("P000001".toList) = some 2 := by
  constructor
  · exact (c7_file_for_code _ _).1 (by decide)
  · exact (c7_file_for_code _ _).2
      [(1, [("H000001".toList, "Housing".toList)])] 2
      [("P000001".toList, "Total population".toList)] [] rfl
      (by decide) (by decide)

/-! ## C8 -/

/-- The inner entry loop of `codes_for_description`, as filter-append. -/
theorem codes_for_description_inner (entry : List (Str × Str)) (d : Str)
    (acc : List (Str × Str)) :
    entry.foldl
        (fun acc2 p =>
          if strContains (lowerStr p.2) d then acc2 ++ [(p.1, p.2)] else acc2)
        acc
      = acc ++ entry.filter (fun p => strContains (lowerStr p.2) d) := by
  induction entry generalizing acc with
  | nil => simp
  | cons p rest ih =>
    by_cases h : strContains (lowerStr p.2) d
    · simp only [List.foldl_cons, List.filter_cons, h, if_true, ih]
      simp
    · simp only [List.foldl_cons, List.filter_cons, h, if_false, ih]
      simp [h]

/-- C8: `codes_for_description` returns exactly every (code, description)
pair whose lowercased description contains the lowercased query, in
catalog iteration order then entry iteration order; and since only the
lowercasings enter the comparison, any two queries with the same
lowercasing (differing only in letter case) get the same answer. -/
theorem c8_codes_for_description (catalog : List (Nat × List (Str × Str)))
    (q q' : Str) (hq : lowerStr q' = lowerStr q) :
    codes_for_description catalog q' = allDescriptionMatches catalog q := by
  unfold codes_for_description
  rw [hq]
  have main : ∀ (cat : List (Nat × List (Str × Str))) (acc : List (Str × Str)),
      cat.foldl
          (fun acc e =>
            e.2.foldl
              (fun acc2 p =>
                if strContains (lowerStr p.2) (lowerStr q) then acc2 ++ [(p.1, p.2)]
                else acc2)
              acc)
          acc
        = acc ++ allDescriptionMatches cat q := by
    intro cat
    induction cat with
    | nil => simp [allDescriptionMatches]
    | cons e rest ih =>
      intro acc
      rw [List.foldl_cons, codes_for_description_inner, ih,
        List.append_assoc]
      rfl
  simpa using main catalog []

/-- C8 witness: the query HOUSEhold, differing in case from household,
still returns both matching descriptions (one capitalised, one upper
case), in order, and skips the non-match. -/
theorem c8_codes_for_description_witness :
    codes_for_description
        [(1, [("H000001".toList, "Total Household count".toList),
              ("H000002".toList, "Vacant units".toList)]),
         (2, [("H000003".toList, "AVERAGE HOUSEHOLD SIZE".toList)])]
        ("HOUSEhold".toList)
      = allDescriptionMatches
          [(1, [("H000001".toList, "Total Household count".toList),
                ("H000002".toList, "Vacant units".toList)]),
           (2, [("H000003".toList, "AVERAGE HOUSEHOLD SIZE".toList)])]
          ("household".toList) := by
  exact c8_codes_for_description _ _ _ (by decide)

/-! ## C9 -/

/-- What a successful four-character grab says about the captured group. -/
theorem grab4_shape {r g rest : Str} (h : grab4 r = some (g, rest)) :
    g.length = 4 ∧ ∀ x ∈ g, isAlnumU x = true := by
  unfold grab4 at h
  split at h
  · split at h
    · next hcls =>
      simp only [Option.some.injEq, Prod.mk.injEq] at h
      obtain ⟨hg, -⟩ := h
      subst hg
      simp only [Bool.and_eq_true] at hcls
      obtain ⟨⟨⟨⟨⟨ha, hb⟩, hc⟩, hd⟩, -⟩, -⟩ := hcls
      refine ⟨rfl, ?_⟩
      intro x hx
      simp only [List.mem_cons, List.not_mem_nil, or_false] at hx
      rcases hx with rfl | rfl | rfl | rfl
      exacts [ha, hb, hc, hd]
    · exact Option.noConfusion h
  · exact Option.noConfusion h

/-- What a successful three-character grab says about the captured group. -/
theorem grab3_shape {r g rest : Str} (h : grab3 r = some (g, rest)) :
    g.length = 3 ∧ ∀ x ∈ g, isAlnumU x = true := by
  unfold grab3 at h
  split at h
  · split at h
    · next hcls =>
      simp only [Option.some.injEq, Prod.mk.injEq] at h
      obtain ⟨hg, -⟩ := h
      subst hg
      simp only [Bool.and_eq_true] at hcls
      obtain ⟨⟨⟨⟨ha, hb⟩, hc⟩, -⟩, -⟩ := hcls
      refine ⟨rfl, ?_⟩
      intro x hx
      simp only [List.mem_cons, List.not_mem_nil, or_false] at hx
      rcases hx with rfl | rfl | rfl
      exacts [ha, hb, hc]
    · exact Option.noConfusion h
  · exact Option.noConfusion h

/-- A code captured by the catalog pattern is one upper-case letter, three
digits, then three or four alphanumerics. -/
theorem codeSplit_shape {s code after : Str}
    (h : codeSplit s = some (code, after)) :
    ∃ c0 d1 d2 d3 g, code = c0 :: d1 :: d2 :: d3 :: g ∧
      isUpperAlpha c0 = true ∧ isDigitB d1 = true ∧ isDigitB d2 = true ∧
      isDigitB d3 = true ∧ (g.length = 3 ∨ g.length = 4) ∧
      ∀ x ∈ g, isAlnumU x = true := by
  unfold codeSplit at h
  split at h
  · next c0 d1 d2 d3 rest =>
    split at h
    · next hcls =>
      simp only [Bool.and_eq_true] at hcls
      obtain ⟨⟨⟨h0, h1⟩, h2⟩, h3⟩ := hcls
      cases h4 : grab4 rest with
      | some p =>
        obtain ⟨g, aft⟩ := p
        rw [h4] at h
        simp only [Option.some.injEq, Prod.mk.injEq] at h
        obtain ⟨hcode, -⟩ := h
        subst hcode
        obtain ⟨hlen, hall⟩ := grab4_shape h4
        exact ⟨c0, d1, d2, d3, g, rfl, h0, h1, h2, h3, Or.inr hlen, hall⟩
      | none =>
        rw [h4] at h
        cases h5 : grab3 rest with
        | some p =>
          obtain ⟨g, aft⟩ := p
          rw [h5] at h
          simp only [Option.some.injEq, Prod.mk.injEq] at h
          obtain ⟨hcode, -⟩ := h
          subst hcode
          obtain ⟨hlen, hall⟩ := grab3_shape h5
          exact ⟨c0, d1, d2, d3, g, rfl, h0, h1, h2, h3, Or.inl hlen, hall⟩
        | none =>
          rw [h5] at h
          exact Option.noConfusion h
    · exact Option.noConfusion h
  · exact Option.noConfusion h

/-- The captured-code structure carried up to `matchCodeDesc`. -/
theorem matchCodeDesc_shape {l c d : Str}
    (h : matchCodeDesc l = some (c, d)) :
    ∃ c0 d1 d2 d3 g, c = c0 :: d1 :: d2 :: d3 :: g ∧
      isUpperAlpha c0 = true ∧ isDigitB d1 = true ∧ isDigitB d2 = true ∧
      isDigitB d3 = true ∧ (g.length = 3 ∨ g.length = 4) ∧
      ∀ x ∈ g, isAlnumU x = true := by
  unfold matchCodeDesc at h
  cases hs : codeSplit (l.dropWhile (fun ch => ch == ' ')) with
  | some p =>
    obtain ⟨code, after⟩ := p
    rw [hs] at h
    simp only [Option.map_eq_some'] at h
    obtain ⟨desc, -, hcd⟩ := h
    have hc : code = c := congrArg Prod.fst hcd
    subst hc
    exact codeSplit_shape hs
  | none =>
    rw [hs] at h
    exact Option.noConfusion h

/-- C9 counterexample: the line H016H018='Housing' matches the pattern
with the eight-character code H016H018 (one letter, three digits, four
letters-or-digits), so extracted codes are not all exactly 7 characters
long. -/
theorem c9_counterexample :
    matchCodeDesc ("H016H018='Housing'".toList)
      = some ("H016H018".toList, "Housing".toList) ∧
    ("H016H018".toList).length ≠ 7 := by
  exact ⟨rfl, by decide⟩

/-- C9 amended: every code the catalog pattern extracts has exactly 7 or
8 characters: one upper-case letter, three digits, then three or four
letters-or-digits. -/
theorem c9_amended_code_shape (l c d : Str)
    (h : matchCodeDesc l = some (c, d)) :
    (c.length = 7 ∨ c.length = 8) ∧
    ∃ c0 d1 d2 d3 g, c = c0 :: d1 :: d2 :: d3 :: g ∧
      isUpperAlpha c0 = true ∧ isDigitB d1 = true ∧ isDigitB d2 = true ∧
      isDigitB d3 = true ∧ (g.length = 3 ∨ g.length = 4) ∧
      ∀ x ∈ g, isAlnumU x = true := by
  obtain ⟨c0, d1, d2, d3, g, hc, h0, h1, h2, h3, hlen, hall⟩ :=
    matchCodeDesc_shape h
  refine ⟨?_, c0, d1, d2, d3, g, hc, h0, h1, h2, h3, hlen, hall⟩
  subst hc
  rcases hlen with h4 | h4
  · exact Or.inl (by simp [h4])
  · exact Or.inr (by simp [h4])

/-- C9 witness: the shape statement applied to P000001='Total'. -/
theorem c9_amended_code_shape_witness :
    (("P000001".toList).length = 7 ∨ ("P000001".toList).length = 8) ∧
    ∃ c0 d1 d2 d3 g, "P000001".toList = c0 :: d1 :: d2 :: d3 :: g ∧
      isUpperAlpha c0 = true ∧ isDigitB d1 = true ∧ isDigitB d2 = true ∧
      isDigitB d3 = true ∧ (g.length = 3 ∨ g.length = 4) ∧
      ∀ x ∈ g, isAlnumU x = true := by
  exact c9_amended_code_shape ("P000001='Total'".toList) ("P000001".toList)
    ("Total".toList) rfl

/-! ## C5 -/

/-- A code whose second character is a digit is none of the five header
codes (each has a letter there). -/
theorem digit_second_not_header {c0 d1 d2 d3 : Char} {g : Str}
    (h1 : isDigitB d1 = true) :
    (c0 :: d1 :: d2 :: d3 :: g) ∉ headers5.map Prod.fst := by
  intro hmem
  have h5 : headers5.map Prod.fst =
      [['F', 'I', 'L', 'E', 'I', 'D'],
       ['S', 'T', 'U', 'S', 'A', 'B'],
       ['C', 'H', 'A', 'R', 'I', 'T', 'E', 'R'],
       ['C', 'I', 'F', 'S', 'N'],
       ['L', 'O', 'G', 'R', 'E', 'C', 'N', 'O']] := rfl
  rw [h5] at hmem
  simp only [List.mem_cons, List.not_mem_nil, or_false] at hmem
  rcases hmem with he | he | he | he | he <;>
  · simp only [List.cons.injEq] at he
    obtain ⟨-, hd, -⟩ := he
    rw [hd] at h1
    exact absurd h1 (by decide)

/-- A code captured by the catalog pattern never collides with a header
code: its second character is a digit. -/
theorem matchCodeDesc_not_header {l c d : Str}
    (h : matchCodeDesc l = some (c, d)) :
    c ∉ headers5.map Prod.fst := by
  obtain ⟨c0, d1, d2, d3, g, hc, -, h1, -, -, -, -⟩ := matchCodeDesc_shape h
  subst hc
  exact digit_second_not_header h1

/-- Updating with a non-header key leaves the five header entries as the
untouched prefix. -/
theorem odUpdate_headers_prefix (rest : List (Str × Str)) (c v : Str)
    (hc : c ∉ headers5.map Prod.fst) :
    ∃ rest2, odUpdate (headers5 ++ rest) c v = headers5 ++ rest2 := by
  unfold odUpdate
  by_cases hk : hasKey c (headers5 ++ rest) = true
  · rw [if_pos hk]
    refine ⟨rest.map (fun p => if p.1 = c then (c, v) else p), ?_⟩
    rw [List.map_append]
    congr 1
    have hfix : ∀ p ∈ headers5, (if p.1 = c then (c, v) else p) = p := by
      intro p hp
      rw [if_neg]
      intro hpc
      exact hc (hpc ▸ List.mem_map_of_mem Prod.fst hp)
    calc headers5.map (fun p => if p.1 = c then (c, v) else p)
        = headers5.map id := List.map_congr_left hfix
      _ = headers5 := List.map_id _
  · rw [if_neg hk]
    exact ⟨rest ++ [(c, v)], by rw [List.append_assoc]⟩

/-- The catalog-entry fold keeps the five headers as the entry's prefix. -/
theorem foldl_headers_prefix (ls : List Str) :
    ∀ rest : List (Str × Str),
      ∃ rest2,
        ls.foldl
          (fun d line =>
            match matchCodeDesc line with
            | some (c, desc) => odUpdate d c desc
            | none => d)
          (headers5 ++ rest) = headers5 ++ rest2 := by
  induction ls with
  | nil => exact fun rest => ⟨rest, rfl⟩
  | cons l ls ih =>
    intro rest
    simp only [List.foldl_cons]
    cases hm : matchCodeDesc l with
    | some p =>
      obtain ⟨c, desc⟩ := p
      obtain ⟨rest2, h2⟩ :=
        odUpdate_headers_prefix rest c desc (matchCodeDesc_not_header hm)
      obtain ⟨rest3, h3⟩ := ih rest2
      rw [← h2] at h3
      exact ⟨rest3, h3⟩
    | none => exact ih rest

/-- C5: whatever the document's lines are, the built catalog entry starts
with exactly the five fixed header entries, in their fixed order, before
anything parsed from the document. -/
theorem c5_headers_prefix (lines : List Str) :
    (codesFromSasLines lines).take 5 = headers5 := by
  obtain ⟨rest2, h2⟩ := foldl_headers_prefix lines []
  rw [List.append_nil] at h2
  unfold codesFromSasLines
  rw [h2]
  have h5 : headers5.length = 5 := rfl
  rw [← h5, List.take_left]

/-! ## C6 -/

/-- An absent key looks up to nothing. -/
theorem hasKey_false_lookup_none {d : List (Str × Str)} {c : Str}
    (h : hasKey c d = false) : entryLookup d c = none := by
  induction d with
  | nil => rfl
  | cons p rest ih =>
    simp only [hasKey] at h
    by_cases hpc : p.1 = c
    · rw [if_pos hpc] at h
      exact Bool.noConfusion h
    · rw [if_neg hpc] at h
      simp only [entryLookup, if_neg hpc]
      exact ih h

/-- Lookup after the in-place overwrite `d.map`. -/
theorem lookup_map_replace (d : List (Str × Str)) (k v c : Str) :
    entryLookup (d.map (fun p => if p.1 = k then (k, v) else p)) c
      = if k = c then (if hasKey k d then some v else none)
        else entryLookup d c := by
  induction d with
  | nil =>
    by_cases hkc : k = c <;> simp [entryLookup, hasKey, hkc]
  | cons p rest ih =>
    obtain ⟨pk, pv⟩ := p
    by_cases hpk : pk = k <;> by_cases hkc : k = c
    · subst hpk; subst hkc
      simp [entryLookup, hasKey]
    · subst hpk
      have hpc : ¬ pk = c := hkc
      simp [entryLookup, hasKey, hkc, hpc, ih]
    · subst hkc
      have hpc : ¬ pk = k := hpk
      simp [entryLookup, hasKey, hpc, ih]
    · by_cases hpc : pk = c
      · subst hpc
        simp [entryLookup, hasKey, hpk, hkc, Ne.symm hkc]
      · simp [entryLookup, hasKey, hpk, hkc, hpc, ih]

/-- Lookup after appending one fresh pair. -/
theorem lookup_append_single (d : List (Str × Str)) (k v c : Str) :
    entryLookup (d ++ [(k, v)]) c
      = match entryLookup d c with
        | some w => some w
        | none => if k = c then some v else none := by
  induction d with
  | nil => rfl
  | cons p rest ih =>
    simp only [List.cons_append, entryLookup]
    by_cases hpc : p.1 = c
    · rw [if_pos hpc, if_pos hpc]
    · rw [if_neg hpc, if_neg hpc]
      exact ih

/-- Lookup after one ordered-dictionary write: the written key now maps
to the written value, everything else is untouched. -/
theorem entryLookup_odUpdate (d : List (Str × Str)) (k v c : Str) :
    entryLookup (odUpdate d k v) c
      = if k = c then some v else entryLookup d c := by
  unfold odUpdate
  by_cases hk : hasKey k d = true
  · rw [if_pos hk, lookup_map_replace, hk]
    by_cases hkc : k = c
    · rw [if_pos hkc, if_pos hkc, if_pos rfl]
    · rw [if_neg hkc, if_neg hkc]
  · rw [if_neg hk, lookup_append_single]
    have hnone : entryLookup d k = none :=
      hasKey_false_lookup_none (Bool.not_eq_true _ ▸ hk)
    by_cases hkc : k = c
    · subst hkc
      rw [hnone]
    · simp only [if_neg hkc]
      cases hdc : entryLookup d c with
      | some w => rfl
      | none => rfl

/-- Lookup through a write sequence: the last write wins, else the
original dictionary answers. -/
theorem applyWrites_lookup (xs : List (Str × Str)) :
    ∀ (d : List (Str × Str)) (c : Str),
      entryLookup (applyWrites d xs) c
        = match lastWriteValue xs c with
          | some w => some w
          | none => entryLookup d c := by
  induction xs with
  | nil => intro d c; rfl
  | cons p xs ih =>
    intro d c
    obtain ⟨k, v⟩ := p
    have step : applyWrites d ((k, v) :: xs) = applyWrites (odUpdate d k v) xs := rfl
    rw [step, ih, entryLookup_odUpdate]
    simp only [lastWriteValue]
    cases hlast : lastWriteValue xs c with
    | some w => rfl
    | none =>
      by_cases hkc : k = c
      · rw [if_pos hkc, if_pos hkc]
      · rw [if_neg hkc, if_neg hkc]

/-- Keys after one ordered-dictionary write: unchanged on overwrite,
extended by the fresh key on insert. -/
theorem keys_odUpdate (d : List (Str × Str)) (k v : Str) :
    (odUpdate d k v).map Prod.fst
      = if hasKey k d then d.map Prod.fst else d.map Prod.fst ++ [k] := by
  unfold odUpdate
  by_cases hk : hasKey k d = true
  · rw [if_pos hk, if_pos hk, List.map_map]
    apply List.map_congr_left
    intro p hp
    by_cases hpk : p.1 = k
    · simp [Function.comp, hpk]
    · simp [Function.comp, hpk]
  · rw [if_neg hk, if_neg hk, List.map_append]
    rfl

/-- First-occurrence deduplication only depends on the seen set's
membership. -/
theorem dedupFirstAvoid_congr (cs : List Str) :
    ∀ (s1 s2 : List Str), (∀ x, x ∈ s1 ↔ x ∈ s2) →
      dedupFirstAvoid s1 cs = dedupFirstAvoid s2 cs := by
  induction cs with
  | nil => intro s1 s2 _; rfl
  | cons c cs ih =>
    intro s1 s2 hmem
    simp only [dedupFirstAvoid]
    by_cases hc : c ∈ s1
    · rw [if_pos hc, if_pos ((hmem c).mp hc)]
      exact ih s1 s2 hmem
    · rw [if_neg hc, if_neg (fun h => hc ((hmem c).mpr h))]
      refine congrArg _ (ih _ _ ?_)
      intro x
      simp only [List.mem_cons]
      exact or_congr Iff.rfl (hmem x)

/-- Keys through a write sequence: the original keys, then the fresh keys
in order of first occurrence. -/
theorem applyWrites_keys (xs : List (Str × Str)) :
    ∀ d : List (Str × Str),
      (applyWrites d xs).map Prod.fst
        = d.map Prod.fst
            ++ dedupFirstAvoid (d.map Prod.fst) (xs.map Prod.fst) := by
  induction xs with
  | nil => intro d; simp [applyWrites, dedupFirstAvoid]
  | cons p xs ih =>
    intro d
    obtain ⟨k, v⟩ := p
    have step : applyWrites d ((k, v) :: xs) = applyWrites (odUpdate d k v) xs := rfl
    rw [step, ih]
    simp only [keys_odUpdate, List.map_cons, dedupFirstAvoid]
    by_cases hk : hasKey k d = true
    · have hmem : k ∈ d.map Prod.fst := hasKey_mem_iff.mp hk
      simp [hk, hmem]
    · have hmem : k ∉ d.map Prod.fst := fun h => hk (hasKey_mem_iff.mpr h)
      have hdd : dedupFirstAvoid (d.map Prod.fst ++ [k]) (xs.map Prod.fst)
          = dedupFirstAvoid (k :: d.map Prod.fst) (xs.map Prod.fst) := by
        refine dedupFirstAvoid_congr _ _ _ ?_
        intro x
        simp only [List.mem_append, List.mem_cons, List.not_mem_nil, or_false]
        exact or_comm
      simp only [hk, hmem, if_false, Bool.false_eq_true, List.append_assoc,
        List.singleton_append, hdd]

/-- The per-document loop is the header entries with the document's
extracted writes folded on. -/
theorem codesFromSasLines_eq_applyWrites (lines : List Str) :
    codesFromSasLines lines = applyWrites headers5 (extractedWrites lines) := by
  suffices h : ∀ (ls : List Str) (d : List (Str × Str)),
      ls.foldl
          (fun d line =>
            match matchCodeDesc line with
            | some (c, desc) => odUpdate d c desc
            | none => d)
          d
        = applyWrites d (ls.filterMap matchCodeDesc) by
    exact h lines headers5
  intro ls
  induction ls with
  | nil => intro d; rfl
  | cons l ls ih =>
    intro d
    simp only [List.foldl_cons, List.filterMap_cons]
    cases hm : matchCodeDesc l with
    | some p =>
      obtain ⟨c, desc⟩ := p
      have step : applyWrites d ((c, desc) :: ls.filterMap matchCodeDesc)
          = applyWrites (odUpdate d c desc) (ls.filterMap matchCodeDesc) := rfl
      rw [step]
      exact ih (odUpdate d c desc)
    | none => exact ih d

/-- C6: the built catalog entry is the ordered dictionary of the header
writes followed by the document's pattern matches: its key sequence is
the write sequence's keys deduplicated to their first occurrence (so a
duplicate never moves a code), and every key maps to the value of its
last write (so the description of the last matching line wins). -/
theorem c6_last_write_first_position (lines : List Str) :
    (codesFromSasLines lines).map Prod.fst
      = firstOccurrenceKeys ((headers5 ++ extractedWrites lines).map Prod.fst) ∧
    ∀ c, entryLookup (codesFromSasLines lines) c
      = lastWriteValue (headers5 ++ extractedWrites lines) c := by
  have hh : List.foldl (fun acc p => odUpdate acc p.1 p.2) [] headers5
      = headers5 := by decide
  have he : codesFromSasLines lines
      = applyWrites [] (headers5 ++ extractedWrites lines) := by
    rw [codesFromSasLines_eq_applyWrites]
    unfold applyWrites
    rw [List.foldl_append, hh]
  constructor
  · rw [he, applyWrites_keys]
    rfl
  · intro c
    rw [he, applyWrites_lookup]
    cases lastWriteValue (headers5 ++ extractedWrites lines) c with
    | some w => rfl
    | none => rfl

end Census
